import Mathlib

/-!
Shallow embedding of `src/packed_leaf.rs` from macladson/milhouse.

A `PackedLeaf<T>` packs up to `T::tree_hash_packing_factor()` small values
into a single 32-byte hash chunk.  The Rust `Hash256` buffer is modelled as a
`List Nat` of bytes (length 32 for every leaf the Rust code can construct),
the `u8` length field as a `Nat` (reduced mod 256 where the Rust code writes
it), and the element type `T` by a configuration bundling the packing factor
and the SSZ byte serialization.  Fallible operations return an `Outcome`:
`ok` for `Ok`, `err` for `Err`, and `fatal` for a Rust panic (failed
`assert!`, slice out of range, `copy_from_slice` length mismatch, or the
explicit contiguity panic in `insert_mut`).
-/

namespace Milhouse

/-- `tree_hash::BYTES_PER_CHUNK`: the chunk size, 32 bytes. -/
def BYTES_PER_CHUNK : Nat := 32

/-- The two `Error` variants of the crate that `packed_leaf.rs` produces. -/
inductive Error where
  | packedLeafOutOfBounds (sub_index : Nat) (len : Nat)
  | packedLeafFull (len : Nat)
deriving DecidableEq

/-- Result of running a Rust operation: `Ok`, `Err e`, or a panic. -/
inductive Outcome (α : Type) where
  | ok (a : α)
  | err (e : Error)
  | fatal
deriving DecidableEq

/-- Sequencing of fallible operations: errors and panics propagate. -/
def Outcome.bind : Outcome α → (α → Outcome β) → Outcome β
  | .ok a, f => f a
  | .err e, _ => .err e
  | .fatal, _ => .fatal

/-- The capabilities of a packable element type `T` used by `packed_leaf.rs`:
the constant `T::tree_hash_packing_factor()` and `T::as_ssz_bytes`. -/
structure PackCfg (T : Type) where
  tree_hash_packing_factor : Nat
  as_ssz_bytes : T → List Nat

/-- The `Value` contract assumed by the code: the packing factor divides the
chunk size exactly, and every value serializes to exactly `value_len` bytes. -/
def value_len (cfg : PackCfg T) : Nat :=
  BYTES_PER_CHUNK / cfg.tree_hash_packing_factor

structure Wf (cfg : PackCfg T) : Prop where
  packing_exact : cfg.tree_hash_packing_factor * value_len cfg = BYTES_PER_CHUNK
  bytes_len : ∀ v, (cfg.as_ssz_bytes v).length = value_len cfg

/-- `PackedLeaf<T>`: the 32-byte chunk (`hash`) plus the `u8` length. -/
structure PackedLeaf where
  hash : List Nat
  length : Nat
deriving DecidableEq

/-- `impl Clone for PackedLeaf`: copies both fields. -/
def PackedLeaf.clone (l : PackedLeaf) : PackedLeaf :=
  { hash := l.hash, length := l.length }

/-- `buf[start..start + src.length] = src`, as a pure list operation.
Faithful to Rust semantics only under the bounds checked by `write_slice`. -/
def copy_from_slice (buf : List Nat) (start : Nat) (src : List Nat) : List Nat :=
  buf.take start ++ (src ++ buf.drop (start + src.length))

/-- `buf[start..start+len].copy_from_slice(src)`: panics when the slice range
exceeds the buffer or the source length differs from the slice length. -/
def write_slice (buf : List Nat) (start len : Nat) (src : List Nat) : Outcome (List Nat) :=
  if buf.length < start + len then .fatal
  else if src.length ≠ len then .fatal
  else .ok (copy_from_slice buf start src)

/-- `PackedLeaf::get`: `None` for `index >= length`, otherwise the element is
read straight out of the buffer bytes at offset `index * value_len`.  The
pointer reinterpretation of the Rust code is modelled by returning those
`value_len` bytes. -/
def PackedLeaf.get (cfg : PackCfg T) (l : PackedLeaf) (index : Nat) : Option (List Nat) :=
  if l.length ≤ index then none
  else some ((l.hash.drop (index * value_len cfg)).take (value_len cfg))

/-- `PackedLeaf::tree_hash`: returns the chunk as-is. -/
def PackedLeaf.tree_hash (l : PackedLeaf) : List Nat :=
  l.hash

/-- `PackedLeaf::empty`: zero chunk, length 0. -/
def PackedLeaf.empty : PackedLeaf :=
  { hash := List.replicate 32 0, length := 0 }

/-- `PackedLeaf::single`: zero chunk with element 0 written, length 1. -/
def PackedLeaf.single (cfg : PackCfg T) (value : T) : Outcome PackedLeaf :=
  (write_slice (List.replicate 32 0) 0 (value_len cfg) (cfg.as_ssz_bytes value)).bind
    fun hash => .ok { hash := hash, length := 1 }

/-- The write loop of `PackedLeaf::repeat`: writes slots `i, i+1, ...` for `k`
iterations, each via a checked slice write. -/
def write_slots (cfg : PackCfg T) (value : T) : Nat → Nat → List Nat → Outcome (List Nat)
  | _, 0, buf => .ok buf
  | i, k + 1, buf =>
    (write_slice buf (i * value_len cfg) (value_len cfg) (cfg.as_ssz_bytes value)).bind
      (write_slots cfg value (i + 1) k)

/-- `PackedLeaf::repeat`: asserts `n <= packing_factor` (panic otherwise),
writes `n` copies of the value into slots `0..n`, sets `length = n as u8`. -/
def PackedLeaf.repeatValue (cfg : PackCfg T) (value : T) (n : Nat) : Outcome PackedLeaf :=
  if cfg.tree_hash_packing_factor < n then .fatal
  else (write_slots cfg value 0 n (List.replicate 32 0)).bind
    fun buf => .ok { hash := buf, length := n % 256 }

/-- `PackedLeaf::insert_mut`: out-of-bounds error when
`sub_index >= BYTES_PER_CHUNK`; otherwise writes the value bytes at
`sub_index`, then increments the length on append (`index == length`), panics
on a non-contiguous insert (`index > length`), and leaves the length alone on
overwrite (`index < length`). -/
def PackedLeaf.insert_mut (cfg : PackCfg T) (l : PackedLeaf) (index : Nat) (value : T) :
    Outcome PackedLeaf :=
  let sub_index := index * value_len cfg
  if BYTES_PER_CHUNK ≤ sub_index then
    .err (Error.packedLeafOutOfBounds sub_index l.length)
  else
    (write_slice l.hash sub_index (value_len cfg) (cfg.as_ssz_bytes value)).bind
      fun hash =>
        if index = l.length then .ok { hash := hash, length := (l.length + 1) % 256 }
        else if l.length < index then .fatal
        else .ok { hash := hash, length := l.length }

/-- `PackedLeaf::insert_at_index`: clones, applies `insert_mut` to the clone. -/
def PackedLeaf.insert_at_index (cfg : PackCfg T) (l : PackedLeaf) (index : Nat) (value : T) :
    Outcome PackedLeaf :=
  l.clone.insert_mut cfg index value

/-- `PackedLeaf::push`: full error when `length >= packing_factor`, else
`insert_mut(length, value)`. -/
def PackedLeaf.push (cfg : PackCfg T) (l : PackedLeaf) (value : T) : Outcome PackedLeaf :=
  if cfg.tree_hash_packing_factor ≤ l.length then
    .err (Error.packedLeafFull l.length)
  else
    l.insert_mut cfg l.length value

/-- Sequential scan applying a step to each `(index, value)` entry in list
order, stopping at the first error or panic. -/
def scan_entries (step : σ → Nat → T → Outcome σ) : List (Nat × T) → σ → Outcome σ
  | [], acc => .ok acc
  | e :: rest, acc => (step acc e.1 e.2).bind (scan_entries step rest)

/-- Modelled from the spec: `UpdateMap::for_each_range` is declared in the
update-map module, which is not under src/; per the spec it visits every
present key of the map in `[start, stop)` in ascending order, invoking the
step on each, and propagates the first error or abort as failure of the whole
scan.  The map is modelled as an association list sorted strictly ascending
by key. -/
def for_each_range (m : List (Nat × T)) (start stop : Nat)
    (step : σ → Nat → T → Outcome σ) (init : σ) : Outcome σ :=
  scan_entries step (m.filter fun p => decide (start ≤ p.1) && decide (p.1 < stop)) init

/-- `PackedLeaf::update`: clones, then folds every pending write with global
index in `[prefix, prefix + packing_factor)` into the clone via `insert_mut`
at local index `index % packing_factor`.  The `_hash` argument is unused in
the source. -/
def PackedLeaf.update (cfg : PackCfg T) (l : PackedLeaf) (pfx : Nat) (_hash : List Nat)
    (updates : List (Nat × T)) : Outcome PackedLeaf :=
  let packing_factor := cfg.tree_hash_packing_factor
  let start := pfx
  let stop := pfx + packing_factor
  for_each_range updates start stop
    (fun acc index value => acc.insert_mut cfg (index % packing_factor) value) l.clone

/-- Per the spec's words for the batch-equivalence property: apply each
pending write in the leaf's range individually via `insert_at_index`, in
ascending global-index order. -/
def apply_each (cfg : PackCfg T) (packing_factor : Nat) :
    List (Nat × T) → PackedLeaf → Outcome PackedLeaf
  | [], l => .ok l
  | e :: rest, l =>
    (l.insert_at_index cfg (e.1 % packing_factor) e.2).bind (apply_each cfg packing_factor rest)

/-- Per the spec's words: the individual-application side of the
batch-equivalence property, over the pending writes in the leaf's window. -/
def apply_individually (cfg : PackCfg T) (l : PackedLeaf) (pfx : Nat)
    (updates : List (Nat × T)) : Outcome PackedLeaf :=
  let packing_factor := cfg.tree_hash_packing_factor
  apply_each cfg packing_factor
    (updates.filter fun p => decide (pfx ≤ p.1) && decide (p.1 < pfx + packing_factor)) l

/-- Iterated `push`, for the length-monotonicity property. -/
def push_all (cfg : PackCfg T) : PackedLeaf → List T → Outcome PackedLeaf
  | l, [] => .ok l
  | l, v :: vs => (l.push cfg v).bind fun l2 => push_all cfg l2 vs

/-- The leaf invariant of the claims: the logical length never exceeds the
packing factor. -/
@[reducible]
def Inv (cfg : PackCfg T) (l : PackedLeaf) : Prop :=
  l.length ≤ cfg.tree_hash_packing_factor

/-- A concrete byte-valued configuration (packing factor 32, one byte per
element) used to instantiate theorems on concrete inputs. -/
def byteCfg : PackCfg Nat :=
  { tree_hash_packing_factor := 32, as_ssz_bytes := fun v => [v % 256] }

/-- The byte configuration satisfies the `Value` contract. -/
theorem byteCfg_wf : Wf byteCfg :=
  ⟨rfl, fun _ => rfl⟩

/-- Under the `Value` contract, each element occupies at least one byte. -/
theorem value_len_pos (cfg : PackCfg T) (wf : Wf cfg) : 0 < value_len cfg := by
  rcases Nat.eq_zero_or_pos (value_len cfg) with h | h
  · have hpack := wf.packing_exact
    rw [h, Nat.mul_zero] at hpack
    simp [BYTES_PER_CHUNK] at hpack
  · exact h

/-- Under the `Value` contract, the packing factor is positive. -/
theorem pf_pos (cfg : PackCfg T) (wf : Wf cfg) : 0 < cfg.tree_hash_packing_factor := by
  rcases Nat.eq_zero_or_pos cfg.tree_hash_packing_factor with h | h
  · have hpack := wf.packing_exact
    rw [h, Nat.zero_mul] at hpack
    simp [BYTES_PER_CHUNK] at hpack
  · exact h

/-- Under the `Value` contract, the packing factor is at most 32. -/
theorem pf_le_32 (cfg : PackCfg T) (wf : Wf cfg) : cfg.tree_hash_packing_factor ≤ 32 := by
  have h1 := value_len_pos cfg wf
  have h2 := wf.packing_exact
  have h3 : cfg.tree_hash_packing_factor * 1 ≤ cfg.tree_hash_packing_factor * value_len cfg :=
    Nat.mul_le_mul_left _ h1
  rw [h2] at h3
  simpa [BYTES_PER_CHUNK] using h3

/-- An in-bounds byte offset corresponds to a logical index below the packing
factor. -/
theorem index_lt_pf (cfg : PackCfg T) (wf : Wf cfg) {index : Nat}
    (h : index * value_len cfg < BYTES_PER_CHUNK) :
    index < cfg.tree_hash_packing_factor := by
  by_contra hle
  push_neg at hle
  have hmul : cfg.tree_hash_packing_factor * value_len cfg ≤ index * value_len cfg :=
    Nat.mul_le_mul_right _ hle
  rw [wf.packing_exact] at hmul
  omega

/-- An in-bounds write slot lies entirely within the 32-byte chunk. -/
theorem sub_add_vl_le (cfg : PackCfg T) (wf : Wf cfg) {index : Nat}
    (h : index * value_len cfg < BYTES_PER_CHUNK) :
    index * value_len cfg + value_len cfg ≤ 32 := by
  have hi := index_lt_pf cfg wf h
  have hmul : (index + 1) * value_len cfg ≤
      cfg.tree_hash_packing_factor * value_len cfg :=
    Nat.mul_le_mul_right _ hi
  rw [wf.packing_exact] at hmul
  have hdist : (index + 1) * value_len cfg = index * value_len cfg + value_len cfg :=
    Nat.succ_mul index (value_len cfg)
  simp [BYTES_PER_CHUNK] at hmul
  omega

/-- `copy_from_slice` preserves the buffer length when the write fits. -/
theorem copy_from_slice_length (buf src : List Nat) (start : Nat)
    (h : start + src.length ≤ buf.length) :
    (copy_from_slice buf start src).length = buf.length := by
  simp [copy_from_slice, List.length_append, List.length_take, List.length_drop]
  omega

/-- Bytes before the written range are unchanged by `copy_from_slice`. -/
theorem copy_getElem?_lt (buf src : List Nat) (start k : Nat)
    (hs : start ≤ buf.length) (hk : k < start) :
    (copy_from_slice buf start src)[k]? = buf[k]? := by
  have hlen : (List.take start buf).length = start := by
    simp [List.length_take]
    omega
  unfold copy_from_slice
  rw [List.getElem?_append, hlen, if_pos hk, List.getElem?_take, if_pos hk]

/-- Bytes inside the written range come from the source. -/
theorem copy_getElem?_mid (buf src : List Nat) (start k : Nat)
    (hs : start ≤ buf.length) (h1 : start ≤ k) (h2 : k < start + src.length) :
    (copy_from_slice buf start src)[k]? = src[k - start]? := by
  have hlen : (List.take start buf).length = start := by
    simp [List.length_take]
    omega
  unfold copy_from_slice
  rw [List.getElem?_append_right (hlen.le.trans h1), hlen,
    List.getElem?_append, if_pos (by omega)]

/-- Bytes after the written range are unchanged by `copy_from_slice`. -/
theorem copy_getElem?_ge (buf src : List Nat) (start k : Nat)
    (hs : start ≤ buf.length) (h1 : start + src.length ≤ k) :
    (copy_from_slice buf start src)[k]? = buf[k]? := by
  have hlen : (List.take start buf).length = start := by
    simp [List.length_take]
    omega
  unfold copy_from_slice
  rw [List.getElem?_append_right (by omega), hlen,
    List.getElem?_append_right (by omega), List.getElem?_drop]
  congr 1
  omega

/-- Reading back the written slice of `copy_from_slice` yields the source. -/
theorem copy_slice (buf src : List Nat) (start : Nat) (h : start ≤ buf.length) :
    ((copy_from_slice buf start src).drop start).take src.length = src := by
  have hlen : (List.take start buf).length = start := by
    simp [List.length_take]
    omega
  unfold copy_from_slice
  rw [List.drop_left' hlen, List.take_left]

/-- `insert_mut` on an out-of-bounds byte offset is exactly the
`PackedLeafOutOfBounds` error. -/
theorem insert_mut_of_oob (cfg : PackCfg T) (l : PackedLeaf) {index : Nat} (value : T)
    (h : BYTES_PER_CHUNK ≤ index * value_len cfg) :
    l.insert_mut cfg index value =
      .err (Error.packedLeafOutOfBounds (index * value_len cfg) l.length) := by
  simp [PackedLeaf.insert_mut, h]

/-- `insert_mut` on an in-bounds byte offset: the slice write succeeds and the
result is determined by comparing `index` with `length`. -/
theorem insert_mut_of_lt (cfg : PackCfg T) (wf : Wf cfg) (l : PackedLeaf) {index : Nat}
    (value : T) (hbuf : l.hash.length = 32)
    (h : index * value_len cfg < BYTES_PER_CHUNK) :
    l.insert_mut cfg index value =
      (if index = l.length then
        Outcome.ok
          { hash := copy_from_slice l.hash (index * value_len cfg) (cfg.as_ssz_bytes value),
            length := (l.length + 1) % 256 }
      else if l.length < index then Outcome.fatal
      else
        Outcome.ok
          { hash := copy_from_slice l.hash (index * value_len cfg) (cfg.as_ssz_bytes value),
            length := l.length }) := by
  have hle := sub_add_vl_le cfg wf h
  have hsrc := wf.bytes_len value
  have hnoov : ¬ l.hash.length < index * value_len cfg + value_len cfg := by omega
  simp [PackedLeaf.insert_mut, write_slice, Outcome.bind, Nat.not_le.2 h, hnoov, hsrc]

/-- A slot below the packing factor fits inside the 32-byte chunk. -/
theorem slot_in_bounds (cfg : PackCfg T) (wf : Wf cfg) {index : Nat}
    (h : index < cfg.tree_hash_packing_factor) :
    index * value_len cfg + value_len cfg ≤ 32 := by
  have hmul : (index + 1) * value_len cfg ≤
      cfg.tree_hash_packing_factor * value_len cfg :=
    Nat.mul_le_mul_right _ h
  rw [wf.packing_exact] at hmul
  have hdist : (index + 1) * value_len cfg = index * value_len cfg + value_len cfg :=
    Nat.succ_mul index (value_len cfg)
  simp [BYTES_PER_CHUNK] at hmul
  omega

/-- Eliminates a successful `insert_mut`: the offset was in bounds, the new
buffer is the slice write, and the length followed the append/overwrite rule. -/
theorem insert_mut_ok_elim (cfg : PackCfg T) (wf : Wf cfg) (l : PackedLeaf) {index : Nat}
    {value : T} {l2 : PackedLeaf} (hbuf : l.hash.length = 32)
    (h : l.insert_mut cfg index value = .ok l2) :
    index * value_len cfg < BYTES_PER_CHUNK ∧
    l2.hash = copy_from_slice l.hash (index * value_len cfg) (cfg.as_ssz_bytes value) ∧
    ((index = l.length ∧ l2.length = (l.length + 1) % 256) ∨
      (index < l.length ∧ l2.length = l.length)) := by
  rcases Nat.lt_or_ge (index * value_len cfg) BYTES_PER_CHUNK with hlt | hge
  · rw [insert_mut_of_lt cfg wf l value hbuf hlt] at h
    refine ⟨hlt, ?_⟩
    split at h
    · rename_i hidx
      injection h with h2
      subst h2
      exact ⟨rfl, Or.inl ⟨hidx, rfl⟩⟩
    · rename_i hidx
      split at h
      · exact Outcome.noConfusion h
      · rename_i hgt
        injection h with h2
        subst h2
        exact ⟨rfl, Or.inr ⟨by omega, rfl⟩⟩
  · rw [insert_mut_of_oob cfg l value hge] at h
    exact Outcome.noConfusion h

/-- `insert_mut` at the frontier (`index = length`), in bounds: appends. -/
theorem insert_mut_append_eq (cfg : PackCfg T) (wf : Wf cfg) (l : PackedLeaf) (value : T)
    (hbuf : l.hash.length = 32)
    (hlt : l.length * value_len cfg < BYTES_PER_CHUNK) :
    l.insert_mut cfg l.length value =
      .ok { hash := copy_from_slice l.hash (l.length * value_len cfg) (cfg.as_ssz_bytes value),
            length := (l.length + 1) % 256 } := by
  rw [insert_mut_of_lt cfg wf l value hbuf hlt, if_pos rfl]

/-- `insert_mut` below the frontier, in bounds: overwrites, length unchanged. -/
theorem insert_mut_overwrite_eq (cfg : PackCfg T) (wf : Wf cfg) (l : PackedLeaf)
    {index : Nat} (value : T) (hbuf : l.hash.length = 32)
    (hlt : index * value_len cfg < BYTES_PER_CHUNK) (hidx : index < l.length) :
    l.insert_mut cfg index value =
      .ok { hash := copy_from_slice l.hash (index * value_len cfg) (cfg.as_ssz_bytes value),
            length := l.length } := by
  rw [insert_mut_of_lt cfg wf l value hbuf hlt, if_neg (by omega), if_neg (by omega)]

/-- C1: for every `PackedLeaf` and every index, `get(index)` returns `None`
if `index >= length`, and otherwise returns `Some` of the element whose
serialized bytes occupy buffer offsets
`[index * value_len, (index+1) * value_len)` of the chunk. -/
theorem c1_get_spec (cfg : PackCfg T) (wf : Wf cfg) (l : PackedLeaf)
    (hbuf : l.hash.length = 32) (hinv : Inv cfg l) (index : Nat) :
    (l.get cfg index = none ↔ l.length ≤ index) ∧
    (index < l.length →
      ∃ bytes, l.get cfg index = some bytes ∧ bytes.length = value_len cfg ∧
        ∀ k, k < value_len cfg → bytes[k]? = l.hash[index * value_len cfg + k]?) := by
  constructor
  · constructor
    · intro h
      by_contra hlt
      push_neg at hlt
      simp [PackedLeaf.get, Nat.not_le.2 hlt] at h
    · intro h
      simp [PackedLeaf.get, h]
  · intro h
    have hpf : index < cfg.tree_hash_packing_factor := by
      have := hinv
      unfold Inv at this
      omega
    have hle := slot_in_bounds cfg wf hpf
    have hget : l.get cfg index =
        some ((l.hash.drop (index * value_len cfg)).take (value_len cfg)) := by
      simp [PackedLeaf.get, Nat.not_le.2 h]
    refine ⟨_, hget, ?_, ?_⟩
    · simp [List.length_take, List.length_drop, hbuf]
      omega
    · intro k hk
      rw [List.getElem?_take, if_pos hk, List.getElem?_drop]

/-- Witness for C1 at the byte configuration on a one-element leaf. -/
theorem c1_get_spec_witness :
    (PackedLeaf.get byteCfg ⟨7 :: List.replicate 31 0, 1⟩ 0 = none ↔ (1 : Nat) ≤ 0) ∧
    ((0 : Nat) < 1 →
      ∃ bytes, PackedLeaf.get byteCfg ⟨7 :: List.replicate 31 0, 1⟩ 0 = some bytes ∧
        bytes.length = value_len byteCfg ∧
        ∀ k, k < value_len byteCfg →
          bytes[k]? = (7 :: List.replicate 31 0 : List Nat)[0 * value_len byteCfg + k]?) :=
  c1_get_spec byteCfg byteCfg_wf ⟨7 :: List.replicate 31 0, 1⟩ (by decide) (by decide) 0

/-- C2: `insert_mut(index, value)` fails with
`PackedLeafOutOfBounds{sub_index, len}` if and only if
`sub_index = index * value_len >= CHUNK_BYTES`; otherwise it writes the
value's serialized bytes into buffer offsets
`[sub_index, sub_index + value_len)` and leaves all other buffer bytes
unchanged. -/
theorem c2_insert_mut_oob_spec (cfg : PackCfg T) (wf : Wf cfg) (l : PackedLeaf)
    (hbuf : l.hash.length = 32) (index : Nat) (value : T) :
    (∀ e, l.insert_mut cfg index value = .err e ↔
        BYTES_PER_CHUNK ≤ index * value_len cfg ∧
        e = Error.packedLeafOutOfBounds (index * value_len cfg) l.length) ∧
    (∀ l2, l.insert_mut cfg index value = .ok l2 →
        l2.hash.length = 32 ∧
        (∀ k, index * value_len cfg ≤ k → k < index * value_len cfg + value_len cfg →
            l2.hash[k]? = (cfg.as_ssz_bytes value)[k - index * value_len cfg]?) ∧
        (∀ k, k < index * value_len cfg ∨ index * value_len cfg + value_len cfg ≤ k →
            l2.hash[k]? = l.hash[k]?)) := by
  constructor
  · intro e
    constructor
    · intro h
      rcases Nat.lt_or_ge (index * value_len cfg) BYTES_PER_CHUNK with hlt | hge
      · rw [insert_mut_of_lt cfg wf l value hbuf hlt] at h
        split at h
        · exact Outcome.noConfusion h
        · split at h
          · exact Outcome.noConfusion h
          · exact Outcome.noConfusion h
      · rw [insert_mut_of_oob cfg l value hge] at h
        injection h with h2
        exact ⟨hge, h2.symm⟩
    · rintro ⟨hge, he⟩
      rw [insert_mut_of_oob cfg l value hge, he]
  · intro l2 h
    obtain ⟨hlt, hhash, _⟩ := insert_mut_ok_elim cfg wf l hbuf h
    have hle := sub_add_vl_le cfg wf hlt
    have hsrc := wf.bytes_len value
    refine ⟨?_, ?_, ?_⟩
    · rw [hhash, copy_from_slice_length]
      · exact hbuf
      · omega
    · intro k h1 h2
      rw [hhash, copy_getElem?_mid]
      · omega
      · exact h1
      · omega
    · rintro k (h1 | h1)
      · rw [hhash, copy_getElem?_lt]
        · omega
        · exact h1
      · rw [hhash, copy_getElem?_ge]
        · omega
        · omega

/-- Witness for C2 at the byte configuration: an in-bounds overwrite. -/
theorem c2_insert_mut_oob_spec_witness :
    (∀ e, PackedLeaf.insert_mut byteCfg ⟨7 :: List.replicate 31 0, 1⟩ 0 9 = .err e ↔
        BYTES_PER_CHUNK ≤ 0 * value_len byteCfg ∧
        e = Error.packedLeafOutOfBounds (0 * value_len byteCfg) 1) ∧
    (∀ l2, PackedLeaf.insert_mut byteCfg ⟨7 :: List.replicate 31 0, 1⟩ 0 9 = .ok l2 →
        l2.hash.length = 32 ∧
        (∀ k, 0 * value_len byteCfg ≤ k → k < 0 * value_len byteCfg + value_len byteCfg →
            l2.hash[k]? = (byteCfg.as_ssz_bytes 9)[k - 0 * value_len byteCfg]?) ∧
        (∀ k, k < 0 * value_len byteCfg ∨ 0 * value_len byteCfg + value_len byteCfg ≤ k →
            l2.hash[k]? = (7 :: List.replicate 31 0 : List Nat)[k]?)) :=
  c2_insert_mut_oob_spec byteCfg byteCfg_wf ⟨7 :: List.replicate 31 0, 1⟩ (by decide) 0 9

/-- C3: a successful `insert_mut` increments the length by exactly 1 on an
append (`index == length`) and keeps it unchanged on an overwrite
(`index < length`); an in-bounds insert past the frontier (`index > length`)
panics; and under the precondition `index <= length`, `insert_mut` never
panics. -/
theorem c3_insert_mut_length_spec (cfg : PackCfg T) (wf : Wf cfg) (l : PackedLeaf)
    (hbuf : l.hash.length = 32) (index : Nat) (value : T) :
    (∀ l2, l.insert_mut cfg index value = .ok l2 →
      (index = l.length → l2.length = l.length + 1) ∧
      (index < l.length → l2.length = l.length)) ∧
    (l.length < index → index * value_len cfg < BYTES_PER_CHUNK →
      l.insert_mut cfg index value = .fatal) ∧
    (index ≤ l.length → l.insert_mut cfg index value ≠ .fatal) := by
  have hvl := value_len_pos cfg wf
  refine ⟨?_, ?_, ?_⟩
  · intro l2 h
    obtain ⟨hlt, _, hlen⟩ := insert_mut_ok_elim cfg wf l hbuf h
    have hidx : index ≤ index * value_len cfg := by
      calc index = index * 1 := (Nat.mul_one index).symm
        _ ≤ index * value_len cfg := Nat.mul_le_mul_left index hvl
    simp [BYTES_PER_CHUNK] at hlt
    constructor
    · intro he
      rcases hlen with ⟨_, h2⟩ | ⟨h1, _⟩
      · rw [h2, Nat.mod_eq_of_lt (by omega)]
      · omega
    · intro he
      rcases hlen with ⟨h1, _⟩ | ⟨_, h2⟩
      · omega
      · exact h2
  · intro hgt hlt
    rw [insert_mut_of_lt cfg wf l value hbuf hlt, if_neg (by omega), if_pos hgt]
  · intro hle h
    rcases Nat.lt_or_ge (index * value_len cfg) BYTES_PER_CHUNK with hlt | hge
    · rw [insert_mut_of_lt cfg wf l value hbuf hlt] at h
      split at h
      · exact Outcome.noConfusion h
      · rw [if_neg (by omega)] at h
        exact Outcome.noConfusion h
    · rw [insert_mut_of_oob cfg l value hge] at h
      exact Outcome.noConfusion h

/-- Witness for C3 at the byte configuration: an append at the frontier. -/
theorem c3_insert_mut_length_spec_witness :
    (∀ l2, PackedLeaf.insert_mut byteCfg ⟨7 :: List.replicate 31 0, 1⟩ 1 9 = .ok l2 →
      ((1 : Nat) = 1 → l2.length = 1 + 1) ∧
      ((1 : Nat) < 1 → l2.length = 1)) ∧
    ((1 : Nat) < 1 → 1 * value_len byteCfg < BYTES_PER_CHUNK →
      PackedLeaf.insert_mut byteCfg ⟨7 :: List.replicate 31 0, 1⟩ 1 9 = .fatal) ∧
    ((1 : Nat) ≤ 1 → PackedLeaf.insert_mut byteCfg ⟨7 :: List.replicate 31 0, 1⟩ 1 9 ≠ .fatal) :=
  c3_insert_mut_length_spec byteCfg byteCfg_wf ⟨7 :: List.replicate 31 0, 1⟩ (by decide) 1 9

/-- Iterated `push` succeeds while room remains, adding one element per push
and keeping the buffer at 32 bytes. -/
theorem push_all_ok (cfg : PackCfg T) (wf : Wf cfg) :
    ∀ (vs : List T) (l : PackedLeaf), l.hash.length = 32 →
      l.length + vs.length ≤ cfg.tree_hash_packing_factor →
      ∃ l2, push_all cfg l vs = .ok l2 ∧ l2.length = l.length + vs.length ∧
        l2.hash.length = 32 := by
  intro vs
  induction vs with
  | nil =>
    intro l hbuf hle
    exact ⟨l, rfl, by simp, hbuf⟩
  | cons v vs ih =>
    intro l hbuf hle
    have hlen_lt : l.length < cfg.tree_hash_packing_factor := by
      simp only [List.length_cons] at hle
      omega
    have hslot := slot_in_bounds cfg wf hlen_lt
    have hvl := value_len_pos cfg wf
    have hsub : l.length * value_len cfg < BYTES_PER_CHUNK := by
      simp only [BYTES_PER_CHUNK]
      omega
    have hpush : l.push cfg v =
        .ok { hash := copy_from_slice l.hash (l.length * value_len cfg) (cfg.as_ssz_bytes v),
              length := (l.length + 1) % 256 } := by
      unfold PackedLeaf.push
      rw [if_neg (by omega), insert_mut_append_eq cfg wf l v hbuf hsub]
    have hpf := pf_le_32 cfg wf
    have hmod : (l.length + 1) % 256 = l.length + 1 := Nat.mod_eq_of_lt (by omega)
    have hbuf2 :
        (copy_from_slice l.hash (l.length * value_len cfg) (cfg.as_ssz_bytes v)).length = 32 := by
      rw [copy_from_slice_length]
      · exact hbuf
      · rw [wf.bytes_len v, hbuf]
        exact hslot
    obtain ⟨l2, h1, h2, h3⟩ :=
      ih { hash := copy_from_slice l.hash (l.length * value_len cfg) (cfg.as_ssz_bytes v),
           length := (l.length + 1) % 256 }
        hbuf2 (by simp only [List.length_cons] at hle; simp [hmod]; omega)
    refine ⟨l2, ?_, ?_, h3⟩
    · simp only [push_all, hpush, Outcome.bind]
      exact h1
    · simp only [List.length_cons]
      rw [h2]
      simp [hmod]
      omega

/-- C4: `push` fails with `PackedLeafFull{len}` iff `length >= packing_factor`
and otherwise behaves exactly as `insert_mut(length, value)`; starting from
`empty()`, `packing_factor` pushes all succeed yielding
`length == packing_factor`, and the next push fails with `Full`. -/
theorem c4_push_spec (cfg : PackCfg T) (wf : Wf cfg) (l : PackedLeaf)
    (hbuf : l.hash.length = 32) (value : T) :
    (∀ e, l.push cfg value = .err e ↔
        cfg.tree_hash_packing_factor ≤ l.length ∧ e = Error.packedLeafFull l.length) ∧
    (l.length < cfg.tree_hash_packing_factor →
      l.push cfg value = l.insert_mut cfg l.length value) ∧
    (∀ vs : List T, vs.length = cfg.tree_hash_packing_factor →
      ∃ lfull, push_all cfg PackedLeaf.empty vs = .ok lfull ∧
        lfull.length = cfg.tree_hash_packing_factor ∧
        ∀ w, lfull.push cfg w = .err (Error.packedLeafFull cfg.tree_hash_packing_factor)) := by
  refine ⟨?_, ?_, ?_⟩
  · intro e
    constructor
    · intro h
      rcases Nat.lt_or_ge l.length cfg.tree_hash_packing_factor with hlt | hge
      · have hslot := slot_in_bounds cfg wf hlt
        have hvl := value_len_pos cfg wf
        have hsub : l.length * value_len cfg < BYTES_PER_CHUNK := by
          simp only [BYTES_PER_CHUNK]
          omega
        unfold PackedLeaf.push at h
        rw [if_neg (by omega), insert_mut_append_eq cfg wf l value hbuf hsub] at h
        exact Outcome.noConfusion h
      · unfold PackedLeaf.push at h
        rw [if_pos hge] at h
        injection h with h2
        exact ⟨hge, h2.symm⟩
    · rintro ⟨hge, he⟩
      unfold PackedLeaf.push
      rw [if_pos hge, he]
  · intro hlt
    unfold PackedLeaf.push
    rw [if_neg (by omega)]
  · intro vs hvs
    obtain ⟨lfull, h1, h2, _⟩ :=
      push_all_ok cfg wf vs PackedLeaf.empty (by simp [PackedLeaf.empty])
        (by simp [PackedLeaf.empty, hvs])
    refine ⟨lfull, h1, ?_, ?_⟩
    · rw [h2]
      simp [PackedLeaf.empty, hvs]
    · intro w
      have hfull : lfull.length = cfg.tree_hash_packing_factor := by
        rw [h2]
        simp [PackedLeaf.empty, hvs]
      unfold PackedLeaf.push
      rw [if_pos (by omega), hfull]

/-- Witness for C4 at the byte configuration on the empty leaf. -/
theorem c4_push_spec_witness :
    (∀ e, PackedLeaf.push byteCfg PackedLeaf.empty 5 = .err e ↔
        (32 : Nat) ≤ 0 ∧ e = Error.packedLeafFull 0) ∧
    ((0 : Nat) < 32 →
      PackedLeaf.push byteCfg PackedLeaf.empty 5 =
        PackedLeaf.insert_mut byteCfg PackedLeaf.empty 0 5) ∧
    (∀ vs : List Nat, vs.length = 32 →
      ∃ lfull, push_all byteCfg PackedLeaf.empty vs = .ok lfull ∧
        lfull.length = 32 ∧
        ∀ w, lfull.push byteCfg w = .err (Error.packedLeafFull 32)) :=
  c4_push_spec byteCfg byteCfg_wf PackedLeaf.empty (by decide) 5

/-- C5: `insert_at_index` operates on a clone: the clone copies every field of
the original (so every `get` on the original is unaffected), and the result is
exactly `insert_mut` applied to that clone. -/
theorem c5_insert_at_index_frame (cfg : PackCfg T) (l : PackedLeaf) (index : Nat)
    (value : T) (j : Nat) :
    l.clone = l ∧
    l.insert_at_index cfg index value = l.clone.insert_mut cfg index value ∧
    l.clone.get cfg j = l.get cfg j := by
  refine ⟨?_, rfl, ?_⟩
  · cases l
    rfl
  · cases l
    rfl

/-- C6: round-trip — after a successful `insert_mut(i, v)` with `i` below the
resulting length, `get(i)` returns exactly the serialized bytes of `v`. -/
theorem c6_roundtrip_spec (cfg : PackCfg T) (wf : Wf cfg) (l : PackedLeaf)
    (hbuf : l.hash.length = 32) (i : Nat) (v : T) (l2 : PackedLeaf)
    (hok : l.insert_mut cfg i v = .ok l2) (hlt : i < l2.length) :
    l2.get cfg i = some (cfg.as_ssz_bytes v) := by
  obtain ⟨hsub, hhash, _⟩ := insert_mut_ok_elim cfg wf l hbuf hok
  have hsrc := wf.bytes_len v
  have hle := sub_add_vl_le cfg wf hsub
  have hget : l2.get cfg i =
      some ((l2.hash.drop (i * value_len cfg)).take (value_len cfg)) := by
    simp [PackedLeaf.get, Nat.not_le.2 hlt]
  rw [hget, hhash]
  congr 1
  have hcs := copy_slice l.hash (cfg.as_ssz_bytes v) (i * value_len cfg) (by omega)
  rw [hsrc] at hcs
  exact hcs

/-- Witness for C6 at the byte configuration: insert then read back. -/
theorem c6_roundtrip_spec_witness :
    PackedLeaf.get byteCfg ⟨7 :: List.replicate 31 0, 1⟩ 0 = some (byteCfg.as_ssz_bytes 7) :=
  c6_roundtrip_spec byteCfg byteCfg_wf PackedLeaf.empty (by decide) 0 7
    ⟨7 :: List.replicate 31 0, 1⟩ (by decide) (by decide)

/-- `Outcome.bind` respects pointwise-equal continuations. -/
theorem Outcome.bind_congr {α β : Type} {x : Outcome α} {f g : α → Outcome β}
    (h : ∀ a, f a = g a) : x.bind f = x.bind g := by
  cases x <;> simp [Outcome.bind, h]

/-- The batch scan of `update` coincides with the per-entry
`insert_at_index` fold described by the spec. -/
theorem scan_eq_apply_each (cfg : PackCfg T) :
    ∀ (entries : List (Nat × T)) (l : PackedLeaf),
      scan_entries (fun acc index value =>
          acc.insert_mut cfg (index % cfg.tree_hash_packing_factor) value) entries l =
        apply_each cfg cfg.tree_hash_packing_factor entries l := by
  intro entries
  induction entries with
  | nil => intro l; rfl
  | cons e rest ih =>
    intro l
    simp only [scan_entries, apply_each, PackedLeaf.insert_at_index]
    have hc : l.clone = l := by cases l; rfl
    rw [hc]
    exact Outcome.bind_congr fun a => ih a

/-- Scanning a concatenation runs the two scans in sequence. -/
theorem scan_entries_append {σ : Type} (step : σ → Nat → T → Outcome σ) :
    ∀ (a b : List (Nat × T)) (acc : σ),
      scan_entries step (a ++ b) acc =
        (scan_entries step a acc).bind (scan_entries step b) := by
  intro a
  induction a with
  | nil => intro b acc; rfl
  | cons e rest ih =>
    intro b acc
    simp only [List.cons_append, scan_entries]
    cases hstep : step acc e.1 e.2 with
    | ok acc2 => simp [Outcome.bind, ih]
    | err e2 => simp [Outcome.bind]
    | fatal => simp [Outcome.bind]

/-- C7: `update(prefix, updates)` scans exactly the window
`[prefix, prefix + packing_factor)`, applies each pending write at local index
`global_index % packing_factor` via `insert_mut`, and equals applying each
pending write in that window individually via `insert_at_index` in ascending
global-index order. -/
theorem c7_update_equiv_spec (cfg : PackCfg T) (l : PackedLeaf) (pfx : Nat)
    (h : List Nat) (updates : List (Nat × T))
    (_hsort : updates.Pairwise (fun a b => a.1 < b.1)) :
    l.update cfg pfx h updates = apply_individually cfg l pfx updates := by
  simp only [PackedLeaf.update, for_each_range, apply_individually]
  have hc : l.clone = l := by cases l; rfl
  rw [hc]
  exact scan_eq_apply_each cfg _ l

/-- Witness for C7 at the byte configuration with two pending writes. -/
theorem c7_update_equiv_spec_witness :
    PackedLeaf.update byteCfg ⟨List.replicate 32 0, 2⟩ 0 (List.replicate 32 0)
        [(0, 3), (1, 4)] =
      apply_individually byteCfg ⟨List.replicate 32 0, 2⟩ 0 [(0, 3), (1, 4)] :=
  c7_update_equiv_spec byteCfg ⟨List.replicate 32 0, 2⟩ 0 (List.replicate 32 0)
    [(0, 3), (1, 4)] (by decide)

/-- C8: `update` returns the fully updated clone when every step of the scan
succeeds, and any failing step of the scan (the first failure, after a
successful prefix of the scan) propagates as the failure of the whole call. -/
theorem c8_update_first_error_spec (cfg : PackCfg T) (l : PackedLeaf) (pfx : Nat)
    (h : List Nat) (updates : List (Nat × T)) :
    (∀ l2,
      scan_entries (fun acc index value =>
          acc.insert_mut cfg (index % cfg.tree_hash_packing_factor) value)
        (updates.filter fun p =>
          decide (pfx ≤ p.1) && decide (p.1 < pfx + cfg.tree_hash_packing_factor))
        l.clone = .ok l2 →
      l.update cfg pfx h updates = .ok l2) ∧
    (∀ pre e rest l2 r,
      (updates.filter fun p =>
          decide (pfx ≤ p.1) && decide (p.1 < pfx + cfg.tree_hash_packing_factor)) =
        pre ++ e :: rest →
      scan_entries (fun acc index value =>
          acc.insert_mut cfg (index % cfg.tree_hash_packing_factor) value) pre l.clone =
        .ok l2 →
      l2.insert_mut cfg (e.1 % cfg.tree_hash_packing_factor) e.2 = r →
      (∀ l3, r ≠ .ok l3) →
      l.update cfg pfx h updates = r) := by
  constructor
  · intro l2 hscan
    simp only [PackedLeaf.update, for_each_range]
    exact hscan
  · intro pre e rest l2 r hfilter hpre hstep hne
    simp only [PackedLeaf.update, for_each_range]
    rw [hfilter, scan_entries_append, hpre]
    simp only [Outcome.bind, scan_entries]
    rw [hstep]
    cases r with
    | ok l3 => exact absurd rfl (hne l3)
    | err e2 => rfl
    | fatal => rfl

/-- Witness for C8 at the byte configuration: a non-contiguous pending write
makes the first scan step fail, and the whole `update` fails the same way. -/
theorem c8_update_first_error_spec_witness :
    PackedLeaf.update byteCfg PackedLeaf.empty 0 (List.replicate 32 0) [(2, 5)] =
      .fatal :=
  (c8_update_first_error_spec byteCfg PackedLeaf.empty 0 (List.replicate 32 0) [(2, 5)]).2
    [] (2, 5) [] PackedLeaf.empty.clone .fatal (by decide) rfl (by decide)
    (fun _ hne => Outcome.noConfusion hne)

/-- The write loop of `repeat` succeeds when the slots fit in the chunk, and
the resulting buffer holds the value bytes in each written slot and the old
buffer bytes everywhere else. -/
theorem write_slots_ok (cfg : PackCfg T) (wf : Wf cfg) (value : T) :
    ∀ (k i : Nat) (buf : List Nat), buf.length = 32 →
      (i + k) * value_len cfg ≤ 32 →
      ∃ out, write_slots cfg value i k buf = .ok out ∧ out.length = 32 ∧
        (∀ p, p < i * value_len cfg → out[p]? = buf[p]?) ∧
        (∀ j d, i ≤ j → j < i + k → d < value_len cfg →
          out[j * value_len cfg + d]? = (cfg.as_ssz_bytes value)[d]?) ∧
        (∀ p, (i + k) * value_len cfg ≤ p → out[p]? = buf[p]?) := by
  intro k
  induction k with
  | zero =>
    intro i buf hbuf _
    exact ⟨buf, rfl, hbuf, fun p _ => rfl, fun j d h1 h2 _ => by omega, fun p _ => rfl⟩
  | succ k ih =>
    intro i buf hbuf hle
    have hvl := value_len_pos cfg wf
    have hsrc := wf.bytes_len value
    have hmul1 : (i + (k + 1)) * value_len cfg = (i + 1 + k) * value_len cfg := by
      have harith : i + (k + 1) = i + 1 + k := by omega
      rw [harith]
    have hmul2 : (i + 1) * value_len cfg = i * value_len cfg + value_len cfg :=
      Nat.succ_mul i _
    have hmul3 : (i + 1) * value_len cfg ≤ (i + 1 + k) * value_len cfg :=
      Nat.mul_le_mul_right _ (by omega)
    have hin : i * value_len cfg + value_len cfg ≤ 32 := by omega
    have hbuf2 :
        (copy_from_slice buf (i * value_len cfg) (cfg.as_ssz_bytes value)).length = 32 := by
      rw [copy_from_slice_length]
      · exact hbuf
      · rw [hsrc]
        omega
    obtain ⟨out, h1, h2, h3, h4, h5⟩ :=
      ih (i + 1) (copy_from_slice buf (i * value_len cfg) (cfg.as_ssz_bytes value)) hbuf2
        (by omega)
    refine ⟨out, ?_, h2, ?_, ?_, ?_⟩
    · simp only [write_slots, write_slice]
      rw [hbuf, if_neg (by omega), if_neg (by simp [hsrc])]
      simp only [Outcome.bind]
      exact h1
    · intro p hp
      rw [h3 p (by omega), copy_getElem?_lt buf _ _ p (by omega) hp]
    · intro j d hj1 hj2 hd
      rcases Nat.eq_or_lt_of_le hj1 with heq | hlt
      · subst heq
        rw [h3 (i * value_len cfg + d) (by omega),
          copy_getElem?_mid buf _ _ _ (by omega) (by omega) (by rw [hsrc]; omega)]
        have harith : i * value_len cfg + d - i * value_len cfg = d := by omega
        rw [harith]
      · exact h4 j d hlt (by omega) hd
    · intro p hp
      rw [hmul1] at hp
      rw [h5 p hp, copy_getElem?_ge buf _ _ p (by omega) (by rw [hsrc]; omega)]

/-- C9: `repeat(v, n)` with `n <= packing_factor` yields a leaf of length `n`
whose chunk (returned as-is by `tree_hash`) holds `n` copies of the value's
serialized bytes in slots `0..n` and zero bytes beyond `n * value_len`;
`repeat` with `n > packing_factor` is a fatal assertion failure. -/
theorem c9_repeat_spec (cfg : PackCfg T) (wf : Wf cfg) (value : T) (n : Nat) :
    (cfg.tree_hash_packing_factor < n → PackedLeaf.repeatValue cfg value n = .fatal) ∧
    (n ≤ cfg.tree_hash_packing_factor →
      ∃ l, PackedLeaf.repeatValue cfg value n = .ok l ∧
        l.length = n ∧
        l.tree_hash = l.hash ∧
        (∀ i, i < n → l.get cfg i = some (cfg.as_ssz_bytes value)) ∧
        (∀ p, n * value_len cfg ≤ p → p < 32 → l.tree_hash[p]? = some 0)) := by
  constructor
  · intro h
    simp [PackedLeaf.repeatValue, h]
  · intro h
    have hpf := pf_le_32 cfg wf
    have hvl := value_len_pos cfg wf
    have hle : (0 + n) * value_len cfg ≤ 32 := by
      have hmul : n * value_len cfg ≤
          cfg.tree_hash_packing_factor * value_len cfg :=
        Nat.mul_le_mul_right _ h
      rw [wf.packing_exact] at hmul
      simp only [BYTES_PER_CHUNK] at hmul
      simpa using hmul
    obtain ⟨out, h1, h2, _, h4, h5⟩ :=
      write_slots_ok cfg wf value n 0 (List.replicate 32 0) (by simp) hle
    have hmod : n % 256 = n := Nat.mod_eq_of_lt (by omega)
    refine ⟨⟨out, n % 256⟩, ?_, by simpa using hmod, rfl, ?_, ?_⟩
    · simp only [PackedLeaf.repeatValue]
      rw [if_neg (by omega), h1]
      rfl
    · intro i hi
      have hipf : i < cfg.tree_hash_packing_factor := by omega
      have hslot := slot_in_bounds cfg wf hipf
      have hget : PackedLeaf.get cfg ⟨out, n % 256⟩ i =
          some ((out.drop (i * value_len cfg)).take (value_len cfg)) := by
        simp only [PackedLeaf.get]
        rw [if_neg (by show ¬(n % 256 ≤ i); omega)]
      rw [hget]
      congr 1
      apply List.ext_getElem?
      intro d
      rcases Nat.lt_or_ge d (value_len cfg) with hd | hd
      · rw [List.getElem?_take, if_pos hd, List.getElem?_drop]
        exact h4 i d (Nat.zero_le i) (by omega) hd
      · rw [List.getElem?_take, if_neg (by omega)]
        symm
        apply List.getElem?_eq_none
        rw [wf.bytes_len value]
        omega
    · intro p hp1 hp2
      have hout : out[p]? = (List.replicate 32 0 : List Nat)[p]? :=
        h5 p (by simpa using hp1)
      simp only [PackedLeaf.tree_hash]
      rw [hout, List.getElem?_replicate, if_pos hp2]

/-- Witness for C9 at the byte configuration with three copies. -/
theorem c9_repeat_spec_witness :
    (byteCfg.tree_hash_packing_factor < 3 →
      PackedLeaf.repeatValue byteCfg 9 3 = .fatal) ∧
    ((3 : Nat) ≤ byteCfg.tree_hash_packing_factor →
      ∃ l, PackedLeaf.repeatValue byteCfg 9 3 = .ok l ∧
        l.length = 3 ∧
        l.tree_hash = l.hash ∧
        (∀ i, i < 3 → l.get byteCfg i = some (byteCfg.as_ssz_bytes 9)) ∧
        (∀ p, 3 * value_len byteCfg ≤ p → p < 32 → l.tree_hash[p]? = some 0)) :=
  c9_repeat_spec byteCfg byteCfg_wf 9 3

/-- Eliminates a successful `insert_mut` without assuming anything about the
buffer: the offset was in bounds and the length followed the
append/overwrite rule. -/
theorem insert_mut_ok_length_cases (cfg : PackCfg T) (l : PackedLeaf) {index : Nat}
    {value : T} {l2 : PackedLeaf} (h : l.insert_mut cfg index value = .ok l2) :
    index * value_len cfg < BYTES_PER_CHUNK ∧
    ((index = l.length ∧ l2.length = (l.length + 1) % 256) ∨
      (index < l.length ∧ l2.length = l.length)) := by
  by_cases h32 : BYTES_PER_CHUNK ≤ index * value_len cfg
  · rw [insert_mut_of_oob cfg l value h32] at h
    exact Outcome.noConfusion h
  · refine ⟨by omega, ?_⟩
    simp only [PackedLeaf.insert_mut] at h
    rw [if_neg h32] at h
    cases hw : write_slice l.hash (index * value_len cfg) (value_len cfg)
        (cfg.as_ssz_bytes value) with
    | ok hsh =>
      rw [hw] at h
      simp only [Outcome.bind] at h
      split at h
      · rename_i hidx
        injection h with h2
        subst h2
        exact Or.inl ⟨hidx, rfl⟩
      · rename_i hidx
        split at h
        · exact Outcome.noConfusion h
        · rename_i hgt
          injection h with h2
          subst h2
          exact Or.inr ⟨by omega, rfl⟩
    | err e =>
      rw [hw] at h
      exact Outcome.noConfusion h
    | fatal =>
      rw [hw] at h
      exact Outcome.noConfusion h

/-- A successful `insert_mut` preserves the length invariant. -/
theorem inv_insert_mut (cfg : PackCfg T) (wf : Wf cfg) {l : PackedLeaf} {index : Nat}
    {value : T} {l2 : PackedLeaf} (hinv : Inv cfg l)
    (h : l.insert_mut cfg index value = .ok l2) : Inv cfg l2 := by
  obtain ⟨hlt, hcases⟩ := insert_mut_ok_length_cases cfg l h
  have hvl := value_len_pos cfg wf
  have hidx : index < cfg.tree_hash_packing_factor := index_lt_pf cfg wf hlt
  unfold Inv at hinv ⊢
  rcases hcases with ⟨h1, h2⟩ | ⟨h1, h2⟩
  · rw [h2]
    have hm : (l.length + 1) % 256 ≤ l.length + 1 := Nat.mod_le _ _
    omega
  · omega

/-- The batch scan of `update` preserves the length invariant. -/
theorem inv_scan (cfg : PackCfg T) (wf : Wf cfg) :
    ∀ (entries : List (Nat × T)) (acc l2 : PackedLeaf), Inv cfg acc →
      scan_entries (fun a index value =>
          a.insert_mut cfg (index % cfg.tree_hash_packing_factor) value) entries acc =
        .ok l2 →
      Inv cfg l2 := by
  intro entries
  induction entries with
  | nil =>
    intro acc l2 hi h
    injection h with h2
    subst h2
    exact hi
  | cons e rest ih =>
    intro acc l2 hi h
    simp only [scan_entries] at h
    cases hstep : acc.insert_mut cfg (e.1 % cfg.tree_hash_packing_factor) e.2 with
    | ok acc2 =>
      rw [hstep] at h
      simp only [Outcome.bind] at h
      exact ih acc2 l2 (inv_insert_mut cfg wf hi hstep) h
    | err e2 =>
      rw [hstep] at h
      exact Outcome.noConfusion h
    | fatal =>
      rw [hstep] at h
      exact Outcome.noConfusion h

/-- C10: assuming the `Value` contract, `0 <= length <= packing_factor` holds
for every leaf produced by `empty`, `single`, `repeat`, `insert_at_index` and
`update`, and is preserved by every successful `insert_mut` and `push`. -/
theorem c10_invariant_spec (cfg : PackCfg T) (wf : Wf cfg) :
    Inv cfg PackedLeaf.empty ∧
    (∀ (v : T) l, PackedLeaf.single cfg v = .ok l → Inv cfg l) ∧
    (∀ (v : T) n l, PackedLeaf.repeatValue cfg v n = .ok l → Inv cfg l) ∧
    (∀ l index (v : T) l2, Inv cfg l → l.insert_mut cfg index v = .ok l2 → Inv cfg l2) ∧
    (∀ l (v : T) l2, Inv cfg l → l.push cfg v = .ok l2 → Inv cfg l2) ∧
    (∀ l index (v : T) l2, Inv cfg l → l.insert_at_index cfg index v = .ok l2 →
      Inv cfg l2) ∧
    (∀ l pfx h updates l2, Inv cfg l → l.update cfg pfx h updates = .ok l2 →
      Inv cfg l2) := by
  have hpf := pf_pos cfg wf
  refine ⟨Nat.zero_le _, ?_, ?_, ?_, ?_, ?_, ?_⟩
  · intro v l h
    simp only [PackedLeaf.single] at h
    cases hw : write_slice (List.replicate 32 0) 0 (value_len cfg)
        (cfg.as_ssz_bytes v) with
    | ok hsh =>
      rw [hw] at h
      simp only [Outcome.bind] at h
      injection h with h2
      subst h2
      exact hpf
    | err e =>
      rw [hw] at h
      exact Outcome.noConfusion h
    | fatal =>
      rw [hw] at h
      exact Outcome.noConfusion h
  · intro v n l h
    simp only [PackedLeaf.repeatValue] at h
    by_cases hn : cfg.tree_hash_packing_factor < n
    · rw [if_pos hn] at h
      exact Outcome.noConfusion h
    · rw [if_neg hn] at h
      cases hw : write_slots cfg v 0 n (List.replicate 32 0) with
      | ok buf =>
        rw [hw] at h
        simp only [Outcome.bind] at h
        injection h with h2
        subst h2
        have hm : n % 256 ≤ n := Nat.mod_le _ _
        show n % 256 ≤ cfg.tree_hash_packing_factor
        omega
      | err e =>
        rw [hw] at h
        exact Outcome.noConfusion h
      | fatal =>
        rw [hw] at h
        exact Outcome.noConfusion h
  · intro l index v l2 hi h
    exact inv_insert_mut cfg wf hi h
  · intro l v l2 hi h
    simp only [PackedLeaf.push] at h
    by_cases hfull : cfg.tree_hash_packing_factor ≤ l.length
    · rw [if_pos hfull] at h
      exact Outcome.noConfusion h
    · rw [if_neg hfull] at h
      exact inv_insert_mut cfg wf hi h
  · intro l index v l2 hi h
    simp only [PackedLeaf.insert_at_index] at h
    have hc : l.clone = l := by cases l; rfl
    rw [hc] at h
    exact inv_insert_mut cfg wf hi h
  · intro l pfx h updates l2 hi hup
    simp only [PackedLeaf.update, for_each_range] at hup
    have hc : l.clone = l := by cases l; rfl
    rw [hc] at hup
    exact inv_scan cfg wf _ l l2 hi hup

/-- Witness for C10 at the byte configuration. -/
theorem c10_invariant_spec_witness :
    Inv byteCfg PackedLeaf.empty ∧
    (∀ (v : Nat) l, PackedLeaf.single byteCfg v = .ok l → Inv byteCfg l) ∧
    (∀ (v : Nat) n l, PackedLeaf.repeatValue byteCfg v n = .ok l → Inv byteCfg l) ∧
    (∀ l index (v : Nat) l2, Inv byteCfg l → l.insert_mut byteCfg index v = .ok l2 →
      Inv byteCfg l2) ∧
    (∀ l (v : Nat) l2, Inv byteCfg l → l.push byteCfg v = .ok l2 → Inv byteCfg l2) ∧
    (∀ l index (v : Nat) l2, Inv byteCfg l → l.insert_at_index byteCfg index v = .ok l2 →
      Inv byteCfg l2) ∧
    (∀ l pfx h updates l2, Inv byteCfg l → l.update byteCfg pfx h updates = .ok l2 →
      Inv byteCfg l2) :=
  c10_invariant_spec byteCfg byteCfg_wf

end Milhouse
